import Mathlib

/-!
Verification development for the Contextrs analysis engine
(`src/analysis.rs`, `src/reporting.rs`).

Paths are modelled as lists of components (`PathC`): all paths handled by the
engine are produced by joining and lexically cleaning relative paths, and every
path operation used by the code (`clean` from the `path_clean` crate,
`file_name`, `extension`, `set_file_name`, `set_extension`, `parent`, `join`)
is defined below component-wise, following the Rust semantics.  The empty list
stands for the path that `path_clean` renders as `"."`.
-/

namespace Contextrs

/-- A filesystem path, as its list of `/`-separated components. -/
abbrev PathC := List String

/-- Splits a character list at every occurrence of `sep` (helper for `splitOnChar`). -/
def splitOnCharAux (sep : Char) : List Char → List Char → List String
  | acc, [] => [String.mk acc.reverse]
  | acc, x :: xs =>
    if x = sep then String.mk acc.reverse :: splitOnCharAux sep [] xs
    else splitOnCharAux sep (x :: acc) xs

/-- Splits a string at every occurrence of `sep`. -/
def splitOnChar (sep : Char) (s : String) : List String :=
  splitOnCharAux sep [] s.toList

/-- Components of a relative path string, as Rust `Path::components` sees them up to
`CurDir`: split on `'/'`, drop empty components and `"."` components.  (`path_clean`
drops every `CurDir` component anyway, and `file_name` / `extension` ignore them.) -/
def parsePath (s : String) : PathC :=
  (splitOnChar '/' s).filter (fun c => c != "" && c != ".")

/-- The accumulator update of `path_clean::clean` for a `".."` component: kept at
the start or after another `".."`, otherwise it pops the preceding component. -/
def popDotDot (acc : List String) : List String :=
  match acc with
  | [] => [".."]
  | top :: accRest => if top = ".." then ".." :: top :: accRest else accRest

/-- Accumulator loop of `path_clean::clean`: `"."` components are dropped, `".."`
is handled by `popDotDot`, every other component is kept. -/
def cleanAux : List String → List String → List String
  | acc, [] => acc.reverse
  | acc, c :: rest =>
    if c = "." then cleanAux acc rest
    else if c = ".." then cleanAux (popDotDot acc) rest
    else cleanAux (c :: acc) rest

/-- The crate function `path_clean::clean` on components (the crate returns `"."` for an empty result,
which this model renders as `[]`). -/
def cleanComps (p : PathC) : PathC := cleanAux [] p

/-- Rust `Path::file_name`: the last component, unless the path is empty or
terminates in `".."` (or `"."`, which never survives component parsing). -/
def fileName (p : PathC) : Option String :=
  match p.getLast? with
  | none => none
  | some c => if c = ".." || c = "." then none else some c

/-- Splits a file name's characters at the final dot: `none` when the name holds no
dot, otherwise `some (before, after)`. -/
def lastDotSplit (name : List Char) : Option (List Char × List Char) :=
  match name.reverse.span (fun ch => ch != '.') with
  | (_, []) => none
  | (afterRev, _ :: beforeRev) => some (beforeRev.reverse, afterRev.reverse)

/-- Rust extension of a file name: the portion after the final dot, `none` when
there is no dot or the final dot is the leading character (hidden files), and
`none` for the special name `".."`. -/
def strExtension (name : String) : Option String :=
  if name = ".." then none
  else
    match lastDotSplit name.toList with
    | none => none
    | some (before, after) => if before = [] then none else some (String.mk after)

/-- Rust file stem of a file name: everything before the final dot when the name
has an extension, the whole name otherwise. -/
def strStem (name : String) : String :=
  if name = ".." then name
  else
    match lastDotSplit name.toList with
    | none => name
    | some (before, _) => if before = [] then name else String.mk before

/-- Rust `Path::extension`: the extension of the file name, if any. -/
def pathExtension (p : PathC) : Option String :=
  (fileName p).bind strExtension

/-- Rust `PathBuf::set_file_name`: replaces the final component when the path has a
file name, appends the new name otherwise. -/
def setFileName (p : PathC) (n : String) : PathC :=
  match fileName p with
  | some _ => p.dropLast ++ [n]
  | none => p ++ [n]

/-- Rust `PathBuf::set_extension`: a no-op when the path has no file name,
otherwise rewrites the file name to `stem.ext` (or the bare stem for an empty
extension). -/
def setExtension (p : PathC) (e : String) : PathC :=
  match fileName p with
  | none => p
  | some n => p.dropLast ++ [if e = "" then strStem n else strStem n ++ "." ++ e]

/-- Rust `Path::parent`: drops the final component; `none` for the empty path. -/
def parent (p : PathC) : Option PathC :=
  match p with
  | [] => none
  | _ => some p.dropLast

/-- Rust `str::trim_start_matches('.')`: removes every leading dot. -/
def trimStartDots (s : String) : String :=
  String.mk (s.toList.dropWhile (fun ch => ch = '.'))

/-- Rust `str::starts_with('.')`. -/
def startsWithDot (s : String) : Bool :=
  match s.toList with
  | '.' :: _ => true
  | _ => false

/-- Rust `str::contains(':')`. -/
def containsColon (s : String) : Bool :=
  s.toList.contains ':'

/-- Rust `str::ends_with('/')`. -/
def endsWithSlash (s : String) : Bool :=
  s.toList.getLast? == some '/'

/-- Rust `Path::new(import_str).extension()` on the raw specifier string. -/
def pathExtOfStr (s : String) : Option String :=
  pathExtension (parsePath s)

/-- The constant `IGNORED_DIRS` from `analysis.rs:13`. -/
def IGNORED_DIRS : List String := ["node_modules", ".git", ".next", ".cursor", "target"]

/-- The constant `IGNORED_FILES` from `analysis.rs:14`. -/
def IGNORED_FILES : List String := ["pnpm-lock.yaml", "yarn.lock", "package-lock.json"]

/-- The `extensions` array of `resolve_import_path` (`analysis.rs:299`). -/
def extensionsTried : List String := ["", ".js", ".jsx", ".ts", ".tsx", ".mjs", ".cjs"]

/-- The `index_files` array of `resolve_import_path` (`analysis.rs:301`). -/
def indexFilesTried : List String :=
  ["index.js", "index.jsx", "index.ts", "index.tsx", "index.mjs", "index.cjs"]

/-- The `potential_path` built in the first branch of the extension loop
(`analysis.rs:304-319`): the base itself for the empty extension, otherwise the
base with `ext` pushed onto its file name — unless the base's extension already
equals `ext` without its leading dot, in which case the base is left untouched. -/
def extCandidate (base : PathC) (ext : String) : PathC :=
  if ext = "" then base
  else if (pathExtension base).isNone ||
      (pathExtension base).getD "" != trimStartDots ext then
    setFileName base ((fileName base).getD "" ++ ext)
  else base

/-- The guard of the `set_extension` fallback inside the extension loop
(`analysis.rs:329`): the raw specifier ends with `'/'` or carries no extension. -/
def noExtImport (s : String) : Bool :=
  endsWithSlash s || (pathExtOfStr s).isNone

/-- The extension loop of `resolve_import_path` (`analysis.rs:304-340`): per
extension, first the push-candidate, then — when `noExtImport` holds and the
extension is non-empty — the `set_extension` candidate; each candidate is cleaned
again and tested for membership in the project file set. -/
def tryExtensionsLoop (base : PathC) (importStr : String) (projectFiles : List PathC) :
    List String → Option PathC
  | [] => none
  | ext :: rest =>
    let finalPath := cleanComps (extCandidate base ext)
    if projectFiles.contains finalPath then some finalPath
    else if noExtImport importStr && ext != "" then
      let withExt := cleanComps (setExtension base (trimStartDots ext))
      if projectFiles.contains withExt then some withExt
      else tryExtensionsLoop base importStr projectFiles rest
    else tryExtensionsLoop base importStr projectFiles rest

/-- The index-file loop of `resolve_import_path` (`analysis.rs:344-349`). -/
def tryIndexLoop (base : PathC) (projectFiles : List PathC) : List String → Option PathC
  | [] => none
  | ix :: rest =>
    let cand := cleanComps (base ++ parsePath ix)
    if projectFiles.contains cand then some cand
    else tryIndexLoop base projectFiles rest

/-- The function `resolve_import_path` (`analysis.rs:282-352`): eligibility test, joined and
cleaned base path, extension loop, then index-file loop. -/
def resolve_import_path (source_file : PathC) (import_str : String)
    (project_files : List PathC) : Option PathC :=
  if !startsWithDot import_str || containsColon import_str then none
  else
    match parent source_file with
    | none => none
    | some source_dir =>
      let cleaned_base_path := cleanComps (source_dir ++ parsePath import_str)
      match tryExtensionsLoop cleaned_base_path import_str project_files extensionsTried with
      | some p => some p
      | none => tryIndexLoop cleaned_base_path project_files indexFilesTried

/-- Candidate list following the SPEC's words (§4.4 steps 3-4, the order the claim
states): the cleaned base as-is; then the base with each of `.js .jsx .ts .tsx
.mjs .cjs` appended to its file name, skipping an extension that would duplicate
the one already present; each candidate cleaned again; then the base joined with
each index file.  This definition exists to be compared with
`resolve_import_path`, which is translated from the source. -/
def specCandidates (base : PathC) : List PathC :=
  (base ::
    (extensionsTried.filter (fun e => e != "")).filterMap (fun ext =>
      if (pathExtension base).getD "" == trimStartDots ext then none
      else some (cleanComps (setFileName base ((fileName base).getD "" ++ ext))))) ++
    indexFilesTried.map (fun ix => cleanComps (base ++ parsePath ix))

/-- Resolution as the claim's spec text describes it: eligibility, cleaned base,
then the first member of `specCandidates` present in the project file set. -/
def spec_resolve (source_file : PathC) (import_str : String)
    (project_files : List PathC) : Option PathC :=
  if !startsWithDot import_str || containsColon import_str then none
  else
    match parent source_file with
    | none => none
    | some source_dir =>
      (specCandidates (cleanComps (source_dir ++ parsePath import_str))).find?
        (fun c => project_files.contains c)

/-- The candidates one iteration of the code's extension loop actually tests, in
order: the push-candidate, then — when the specifier ends with `'/'` or has no
extension, and the extension is non-empty — the `set_extension` candidate. -/
def codeCandidatesFor (base : PathC) (importStr : String) (ext : String) : List PathC :=
  cleanComps (extCandidate base ext) ::
    (if noExtImport importStr && ext != "" then
      [cleanComps (setExtension base (trimStartDots ext))]
    else [])

/-- The full ordered candidate list the code tests for membership: the extension
loop's candidates for `"" .js .jsx .ts .tsx .mjs .cjs` in turn, then the index
files. -/
def codeCandidates (base : PathC) (importStr : String) : List PathC :=
  extensionsTried.flatMap (codeCandidatesFor base importStr) ++
    indexFilesTried.map (fun ix => cleanComps (base ++ parsePath ix))

/-- The structure `DetectedConnection` (`analysis.rs:18-23`). -/
structure DetectedConnection where
  source_file : PathC
  imported_string : String
deriving DecidableEq

/-- The structure `ResolvedConnection` (`analysis.rs:25-30`). -/
structure ResolvedConnection where
  source_file : PathC
  imported_string : String
  resolved_target : Option PathC
deriving DecidableEq

/-- The structure `DetectedDefinition` (`analysis.rs:32-38`). -/
structure DetectedDefinition where
  source_file : PathC
  symbol_name : String
  kind : String
  line_number : Nat
deriving DecidableEq

/-- The payload of a successful `AnalysisResult` (`analysis.rs:41`): root path,
file list, resolved connections, definitions. -/
structure ScanResult where
  root_path : PathC
  files : List PathC
  connections : List ResolvedConnection
  definitions : List DetectedDefinition
deriving DecidableEq

/-- The predicate `is_ignored` (`analysis.rs:52-63`): directories are tested against
`IGNORED_DIRS`, files against `IGNORED_FILES`; a path with no file name is never
ignored. -/
def is_ignored (isDir : Bool) (path : PathC) : Bool :=
  match fileName path with
  | some filename =>
    if isDir then IGNORED_DIRS.contains filename else IGNORED_FILES.contains filename
  | none => false

/-- Model of `analyze_file_content` (`analysis.rs:66-278`).  The native
tree-sitter parse and the two structural queries cannot be embedded, so the
extraction over the file's text is the parameter `extract` (giving the captured
non-quoted import specifiers and the detected definitions); the
`fs::read_to_string` outcome is the parameter `readFile`.  On a read failure the
function returns two empty lists (`analysis.rs:69-72`); otherwise a connection
is pushed per captured specifier that is non-empty after quote stripping
(`analysis.rs:145-150`). -/
def analyze_file_content (readFile : PathC → Option String)
    (extract : PathC → String → List String × List DetectedDefinition)
    (path : PathC) : List DetectedConnection × List DetectedDefinition :=
  match readFile path with
  | none => ([], [])
  | some content =>
    let extracted := extract path content
    ((extracted.1.filter (fun s => s != "")).map (fun s => ⟨path, s⟩), extracted.2)

/-- Strict lexicographic comparison of character lists (the order Rust uses on
the bytes of path components; identical on ASCII). -/
def charListLt : List Char → List Char → Bool
  | [], [] => false
  | [], _ :: _ => true
  | _ :: _, [] => false
  | a :: as, b :: bs => if a < b then true else if a = b then charListLt as bs else false

/-- Strict lexicographic comparison of strings, character-wise. -/
def strLt (a b : String) : Bool := charListLt a.toList b.toList

/-- Lexicographic component order on paths: the Boolean comparison matching Rust's
`Ord` on `PathBuf` (component-wise, a strict prefix sorting first). -/
def pathLeB : PathC → PathC → Bool
  | [], _ => true
  | _ :: _, [] => false
  | a :: as, b :: bs =>
    if strLt a b then true else if a = b then pathLeB as bs else false

/-- The path order as a relation. -/
def pathLe (a b : PathC) : Prop := pathLeB a b = true

instance pathLe.decRel : DecidableRel pathLe :=
  fun a b => inferInstanceAs (Decidable (pathLeB a b = true))

/-- Rust `Vec::sort` on paths (`files.sort()` at `analysis.rs:409`,
`sorted_files.sort()` etc. in `reporting.rs`), modelled by insertion sort: the
order is total and antisymmetric, so the sorted permutation is unique and the
choice of stable sorting algorithm is immaterial. -/
def sortPaths (l : List PathC) : List PathC := List.insertionSort pathLe l

/-- The walker entries `start_analysis` keeps (`analysis.rs:363-368`): the raw
iterator results with errors discarded by `filter_map(|e| e.ok())`, then filtered
to regular files that are not ignored. -/
def discoveredEntries (walkerResults : List (Except String (PathC × Bool))) :
    List (PathC × Bool) :=
  (walkerResults.filterMap (fun e => e.toOption)).filter
    (fun pe => !pe.2 && !is_ignored pe.2 pe.1)

/-- The `project_files_set` of `start_analysis` (`analysis.rs:371-374`): the
cleaned path of every kept walker entry (modelled as a list; only membership is
observed). -/
def projectFilesSet (walkerResults : List (Except String (PathC × Bool))) : List PathC :=
  (discoveredEntries walkerResults).map (fun pe => cleanComps pe.1)

/-- Model of the worker body of `start_analysis` (`analysis.rs:358-418`).
`walkerResults` abstracts the `WalkDir` iterator output after `filter_entry`
pruning — each item an entry `(path, isDir)` or a walkdir error — and `analyze`
abstracts the per-file extraction.  The data-parallel `par_iter` stages are
modelled sequentially in entry order, which is the only order the code observes.
The worker always sends exactly one `Ok` value over the channel. -/
def scanResultOf (root_path : PathC)
    (walkerResults : List (Except String (PathC × Bool)))
    (analyze : PathC → List DetectedConnection × List DetectedDefinition) :
    ScanResult :=
  let walker_entries := discoveredEntries walkerResults
  let project_files_set := projectFilesSet walkerResults
  let initial_results := walker_entries.map (fun pe => (pe.1, analyze pe.1))
  let files := initial_results.map (fun r => cleanComps r.1)
  let raw_connections := initial_results.flatMap (fun r => r.2.1)
  let definitions := initial_results.flatMap (fun r => r.2.2)
  let resolved_connections := raw_connections.map (fun conn =>
    (⟨cleanComps conn.source_file, conn.imported_string,
      resolve_import_path conn.source_file conn.imported_string project_files_set⟩ :
      ResolvedConnection))
  ⟨root_path, sortPaths files, resolved_connections, definitions⟩

/-- The single value `start_analysis` sends over its channel: the worker never
constructs an `Err` — walkdir errors were already dropped by
`filter_map(|e| e.ok())` — so the sent value is always `Ok` (`analysis.rs:413`). -/
def start_analysis (root_path : PathC)
    (walkerResults : List (Except String (PathC × Bool)))
    (analyze : PathC → List DetectedConnection × List DetectedDefinition) :
    Except String ScanResult :=
  Except.ok (scanResultOf root_path walkerResults analyze)

mutual
/-- A directory tree, for modelling the `WalkDir` traversal (mutual with its
forest of children so the traversal is structurally recursive). -/
inductive FsEntry where
  | file (name : String)
  | dir (name : String) (children : FsForest)
inductive FsForest where
  | leaf
  | cons (child : FsEntry) (rest : FsForest)
end

mutual
/-- The walk `WalkDir::new(..).into_iter().filter_entry(|e| !is_ignored(e))`
(`analysis.rs:363-365`): the recursive walk yields each entry's `(path, isDir)`
pair, and an entry on which `is_ignored` holds is neither yielded nor — for a
directory — descended into (pruned before recursion). -/
def walkEntries (pre : PathC) : FsEntry → List (PathC × Bool)
  | .file n => if is_ignored false (pre ++ [n]) then [] else [(pre ++ [n], false)]
  | .dir n children =>
    if is_ignored true (pre ++ [n]) then []
    else (pre ++ [n], true) :: walkForest (pre ++ [n]) children
def walkForest (pre : PathC) : FsForest → List (PathC × Bool)
  | .leaf => []
  | .cons child rest => walkEntries pre child ++ walkForest pre rest
end

/-- A component that a real directory entry name can be: non-empty and neither of
the special names `"."` and `".."`. -/
def normalName (n : String) : Bool := n != "" && n != "." && n != ".."

mutual
/-- Every name in the tree is a normal entry name. -/
def treeNormal : FsEntry → Bool
  | .file n => normalName n
  | .dir n children => normalName n && forestNormal children
def forestNormal : FsForest → Bool
  | .leaf => true
  | .cons child rest => treeNormal child && forestNormal rest
end

/-- A capture of one match of the definition query: its capture name from the
query, the text `file_content.get(byte_range)` yields for its node, and the
node's 0-based start row. -/
structure CaptureInfo where
  capture_name : String
  text : Option String
  row : Nat

/-- The kind mapping of `analyze_file_content` (`analysis.rs:244-249`), with its
`"Definition"` fallback arm. -/
def kindOf (captureName : String) : String :=
  if captureName = "def.function" || captureName = "def.function.lexical" ||
      captureName = "def.function.exported" || captureName = "def.function.exported.decl" then
    "Function"
  else if captureName = "def.class" || captureName = "def.class.exported.decl" then
    "Class"
  else if captureName = "def.var.exported.decl" || captureName = "def.var.exported.decl.var" ||
      captureName = "def.var.toplevel" then
    "Variable"
  else "Definition"

/-- Rust `str::starts_with` on strings, character-wise. -/
def strStartsWithStr (s p : String) : Bool :=
  s.toList.take p.toList.length == p.toList

/-- One iteration of the capture loop (`analysis.rs:232-253`) over the state
`(definition_name, kind_str, node_row_for_line)`: a `"def.name"` capture whose
text is available sets the name; any other capture whose name starts with
`"def."` sets the kind through `kindOf` and records its node's row. -/
def defMatchStep (st : Option String × Option String × Option Nat) (cap : CaptureInfo) :
    Option String × Option String × Option Nat :=
  if cap.capture_name = "def.name" then
    match cap.text with
    | some t => (some t, st.2.1, st.2.2)
    | none => st
  else if strStartsWithStr cap.capture_name "def." then
    (st.1, some (kindOf cap.capture_name), some cap.row)
  else st

/-- Processing of one definition-query match (`analysis.rs:226-274`): fold the
capture loop, fall back to the first capture's row when no typed capture was
seen, and push a `DetectedDefinition` — with the node's 0-based row plus one as
its line number — exactly when name, kind and row are all present and the name
is non-empty. -/
def processDefMatch (source : PathC) (captures : List CaptureInfo) :
    Option DetectedDefinition :=
  let st := captures.foldl defMatchStep (none, none, none)
  let rowForLine :=
    match st.2.2 with
    | some r => some r
    | none => captures.head?.map (fun c => c.row)
  match st.1, st.2.1, rowForLine with
  | some nm, some kd, some row => if nm != "" then some ⟨source, nm, kd, row + 1⟩ else none
  | _, _, _ => none

/-- The capture names occurring in the two definition query strings
(`analysis.rs:160-201`); the JS and TS/TSX queries declare the same capture
names and differ only in node kinds. -/
def defQueryCaptureNames : List String :=
  ["def.name", "def.function", "def.function.lexical", "def.function.exported.decl",
   "def.class", "def.class.exported.decl", "def.var.exported.decl",
   "def.var.exported.decl.var"]

/-- The `(target, source)` pairs the inverse-usage map is built from
(`generate_inverse_usage_section`, `reporting.rs:394-402`): one pair per
connection whose `resolved_target` is present; connections with no target
contribute nothing. -/
def inversePairs (connections : List ResolvedConnection) : List (PathC × PathC) :=
  connections.filterMap (fun conn =>
    conn.resolved_target.map (fun t => (t, conn.source_file)))

/-- The grouped content of the inverse-usage section
(`generate_inverse_usage_section`, `reporting.rs:386-456`): the map from each
resolved target to the source files importing it, its keys sorted
(`sorted_target_files.sort()`, line 411), each source list sorted
(`source_files.sort()`, line 432).  The box-drawing rendering of the section is
elided; the groups carry the data the items display. -/
def generate_inverse_usage_groups (connections : List ResolvedConnection) :
    List (PathC × List PathC) :=
  let pairs := inversePairs connections
  let sorted_target_files := sortPaths (pairs.map (fun pr => pr.1)).dedup
  sorted_target_files.map (fun t =>
    (t, sortPaths (pairs.filterMap (fun pr => if pr.1 = t then some pr.2 else none))))

/-! ### Helper lemmas -/

/-- Every path the extension loop returns was found in the project file set. -/
theorem tryExtensionsLoop_mem {base : PathC} {s : String} {P : List PathC}
    {l : List String} {p : PathC} (h : tryExtensionsLoop base s P l = some p) : p ∈ P := by
  induction l with
  | nil => simp [tryExtensionsLoop] at h
  | cons ext rest ih =>
    simp only [tryExtensionsLoop] at h
    split_ifs at h with h1 h2 h3
    · cases h
      exact List.mem_of_elem_eq_true h1
    · cases h
      exact List.mem_of_elem_eq_true h3
    · exact ih h
    · exact ih h

/-- Every path the index-file loop returns was found in the project file set. -/
theorem tryIndexLoop_mem {base : PathC} {P : List PathC} {l : List String} {p : PathC}
    (h : tryIndexLoop base P l = some p) : p ∈ P := by
  induction l with
  | nil => simp [tryIndexLoop] at h
  | cons ix rest ih =>
    rw [tryIndexLoop] at h
    split_ifs at h with h1
    · cases h
      exact List.mem_of_elem_eq_true h1
    · exact ih h

/-- Resolution only ever returns a member of the project file set
(every `return Some` in `analysis.rs:324,335,347` is guarded by the membership
test). -/
theorem resolve_import_path_mem {f : PathC} {s : String} {P : List PathC} {p : PathC}
    (h : resolve_import_path f s P = some p) : p ∈ P := by
  rw [resolve_import_path] at h
  by_cases hel : (!startsWithDot s || containsColon s) = true
  · rw [if_pos hel] at h
    exact absurd h (by simp)
  · rw [if_neg hel] at h
    cases hp : parent f with
    | none =>
      rw [hp] at h
      exact absurd h (by simp)
    | some d =>
      rw [hp] at h
      dsimp only at h
      cases hext : tryExtensionsLoop (cleanComps (d ++ parsePath s)) s P extensionsTried with
      | some q =>
        rw [hext] at h
        cases h
        exact tryExtensionsLoop_mem hext
      | none =>
        rw [hext] at h
        exact tryIndexLoop_mem h

/-- Membership is preserved by the sort used for the delivered file list. -/
theorem mem_sortPaths {q : PathC} {l : List PathC} : q ∈ sortPaths l ↔ q ∈ l :=
  (List.perm_insertionSort pathLe l).mem_iff

/-! ### C3 — ineligible specifiers resolve to none -/

/-- C3: for every source file and project file set, a specifier that does not
begin with `'.'` or that contains `':'` resolves to `None`
(`analysis.rs:287-290`). -/
theorem external_specifier_resolves_to_none (f : PathC) (s : String) (P : List PathC)
    (h : startsWithDot s = false ∨ containsColon s = true) :
    resolve_import_path f s P = none := by
  rw [resolve_import_path]
  rcases h with h | h <;> simp [h]

/-- Witness for C3: the package specifier `"lodash"` resolves to none even though
the project contains a matching file name. -/
theorem external_specifier_resolves_to_none_witness :
    (startsWithDot "lodash" = false ∨ containsColon "lodash" = true) ∧
      resolve_import_path ["src", "a.js"] "lodash" [["src", "lodash"]] = none :=
  ⟨Or.inl (by decide),
    external_specifier_resolves_to_none ["src", "a.js"] "lodash" [["src", "lodash"]]
      (Or.inl (by decide))⟩

/-! ### C6 — index-file resolution -/

/-- C6: from source `src/a.ts`, the specifier `./util` against a project that
contains `src/util/index.ts` and no file candidate for `./util` resolves to
`src/util/index.ts` — the index-file candidates are reached exactly because no
file candidate of the extension loop matched (`analysis.rs:344-351`). -/
theorem index_file_resolution_example :
    resolve_import_path ["src", "a.ts"] "./util" [["src", "util", "index.ts"]] =
        some ["src", "util", "index.ts"] ∧
      tryExtensionsLoop ["src", "util"] "./util" [["src", "util", "index.ts"]]
          extensionsTried = none := by
  decide

/-! ### C1 — candidate order of resolution -/

/-- C1 counterexample: for source `src/a.js`, specifier `./v1.2/` and project set
`{src/v1.js}`, the claimed candidate order (as-is, the six appended extensions,
then index files — `spec_resolve`) exhausts all candidates and yields none, yet
the code resolves to `src/v1.js`: the extension loop's `set_extension` fallback
(`analysis.rs:329-338`) replaces the base's `"2"` extension instead of appending. -/
theorem resolve_import_path_spec_order_counterexample :
    resolve_import_path ["src", "a.js"] "./v1.2/" [["src", "v1.js"]] =
        some ["src", "v1.js"] ∧
      spec_resolve ["src", "a.js"] "./v1.2/" [["src", "v1.js"]] = none := by
  decide

/-! ### The path order is total and transitive -/

theorem charListLt_irrefl (a : List Char) : charListLt a a = false := by
  induction a with
  | nil => rfl
  | cons x xs ih => simp [charListLt, lt_irrefl, ih]

theorem charListLt_trichotomy (a b : List Char) :
    charListLt a b = true ∨ a = b ∨ charListLt b a = true := by
  induction a generalizing b with
  | nil =>
    cases b with
    | nil => exact Or.inr (Or.inl rfl)
    | cons y ys => exact Or.inl rfl
  | cons x xs ih =>
    cases b with
    | nil => exact Or.inr (Or.inr rfl)
    | cons y ys =>
      rcases lt_trichotomy x y with hxy | hxy | hxy
      · exact Or.inl (by simp [charListLt, hxy])
      · subst hxy
        rcases ih ys with h | h | h
        · exact Or.inl (by simp [charListLt, lt_irrefl, h])
        · exact Or.inr (Or.inl (by rw [h]))
        · exact Or.inr (Or.inr (by simp [charListLt, lt_irrefl, h]))
      · exact Or.inr (Or.inr (by simp [charListLt, hxy]))

theorem charListLt_trans {a b c : List Char} (h1 : charListLt a b = true)
    (h2 : charListLt b c = true) : charListLt a c = true := by
  induction a generalizing b c with
  | nil =>
    cases b with
    | nil => simp [charListLt] at h1
    | cons y ys =>
      cases c with
      | nil => simp [charListLt] at h2
      | cons z zs => rfl
  | cons x xs ih =>
    cases b with
    | nil => simp [charListLt] at h1
    | cons y ys =>
      cases c with
      | nil => simp [charListLt] at h2
      | cons z zs =>
        rw [charListLt] at h1 h2 ⊢
        by_cases hxy : x < y
        · by_cases hyz : y < z
          · rw [if_pos (lt_trans hxy hyz)]
          · rw [if_neg hyz] at h2
            by_cases hyze : y = z
            · subst hyze
              rw [if_pos hxy]
            · rw [if_neg hyze] at h2
              exact absurd h2 (by simp)
        · rw [if_neg hxy] at h1
          by_cases hxye : x = y
          · subst hxye
            rw [if_pos rfl] at h1
            by_cases hxz : x < z
            · rw [if_pos hxz]
            · rw [if_neg hxz] at h2 ⊢
              by_cases hxze : x = z
              · rw [if_pos hxze] at h2 ⊢
                exact ih h1 h2
              · rw [if_neg hxze] at h2
                exact absurd h2 (by simp)
          · rw [if_neg hxye] at h1
            exact absurd h1 (by simp)

theorem strLt_irrefl (a : String) : strLt a a = false :=
  charListLt_irrefl a.toList

theorem strLt_trichotomy (a b : String) :
    strLt a b = true ∨ a = b ∨ strLt b a = true := by
  rcases charListLt_trichotomy a.toList b.toList with h | h | h
  · exact Or.inl h
  · refine Or.inr (Or.inl ?_)
    cases a with
    | mk da =>
      cases b with
      | mk db =>
        simp only [String.toList] at h
        exact congrArg String.mk h
  · exact Or.inr (Or.inr h)

theorem strLt_trans {a b c : String} (h1 : strLt a b = true)
    (h2 : strLt b c = true) : strLt a c = true :=
  charListLt_trans h1 h2

theorem pathLeB_total (a b : PathC) : pathLeB a b = true ∨ pathLeB b a = true := by
  induction a generalizing b with
  | nil => exact Or.inl rfl
  | cons x xs ih =>
    cases b with
    | nil => exact Or.inr rfl
    | cons y ys =>
      rcases strLt_trichotomy x y with hxy | hxy | hxy
      · exact Or.inl (by simp [pathLeB, hxy])
      · subst hxy
        rcases ih ys with h | h
        · exact Or.inl (by simp [pathLeB, strLt_irrefl, h])
        · exact Or.inr (by simp [pathLeB, strLt_irrefl, h])
      · exact Or.inr (by simp [pathLeB, hxy])

theorem pathLeB_trans {a b c : PathC} (h1 : pathLeB a b = true)
    (h2 : pathLeB b c = true) : pathLeB a c = true := by
  induction a generalizing b c with
  | nil => rfl
  | cons x xs ih =>
    cases b with
    | nil => simp [pathLeB] at h1
    | cons y ys =>
      cases c with
      | nil => simp [pathLeB] at h2
      | cons z zs =>
        rw [pathLeB] at h1 h2 ⊢
        by_cases hxy : strLt x y = true
        · by_cases hyz : strLt y z = true
          · rw [if_pos (strLt_trans hxy hyz)]
          · rw [if_neg hyz] at h2
            by_cases hyze : y = z
            · subst hyze
              rw [if_pos hxy]
            · rw [if_neg hyze] at h2
              exact absurd h2 (by simp)
        · rw [if_neg hxy] at h1
          by_cases hxye : x = y
          · subst hxye
            rw [if_pos rfl] at h1
            by_cases hxz : strLt x z = true
            · rw [if_pos hxz]
            · rw [if_neg hxz] at h2 ⊢
              by_cases hxze : x = z
              · rw [if_pos hxze] at h2 ⊢
                exact ih h1 h2
              · rw [if_neg hxze] at h2
                exact absurd h2 (by simp)
          · rw [if_neg hxye] at h1
            exact absurd h1 (by simp)

instance pathLe.isTotal : IsTotal PathC pathLe :=
  ⟨fun a b => pathLeB_total a b⟩

instance pathLe.isTrans : IsTrans PathC pathLe :=
  ⟨fun _ _ _ h1 h2 => pathLeB_trans h1 h2⟩

/-- The delivered file list of a scan is the sorted cleaned walker paths. -/
theorem scanResultOf_files (root : PathC) (w : List (Except String (PathC × Bool)))
    (analyze : PathC → List DetectedConnection × List DetectedDefinition) :
    (scanResultOf root w analyze).files = sortPaths (projectFilesSet w) := by
  simp [scanResultOf, projectFilesSet, List.map_map]
  rfl

/-! ### C10 — the delivered file list is sorted -/

/-- C10: for every scan that completes, the files list of the delivered result is
sorted in ascending path order (`files.sort()` at `analysis.rs:409` runs before
the single send), whatever order discovery and extraction produced the entries
in. -/
theorem scan_files_sorted (root : PathC) (w : List (Except String (PathC × Bool)))
    (analyze : PathC → List DetectedConnection × List DetectedDefinition)
    (r : ScanResult) (h : start_analysis root w analyze = Except.ok r) :
    List.Sorted pathLe r.files := by
  simp only [start_analysis, Except.ok.injEq] at h
  subst h
  rw [scanResultOf_files]
  exact List.sorted_insertionSort pathLe _

/-- Witness for C10: a two-file scan delivered out of discovery order. -/
theorem scan_files_sorted_witness :
    List.Sorted pathLe
      (ScanResult.files ⟨["r"], [["r", "a.js"], ["r", "b.js"]], [], []⟩) :=
  scan_files_sorted ["r"]
    [Except.ok (["r", "b.js"], false), Except.ok (["r", "a.js"], false)]
    (fun _ => ([], [])) ⟨["r"], [["r", "a.js"], ["r", "b.js"]], [], []⟩
    (congrArg Except.ok (by decide))

/-! ### C2 — referential integrity of resolved targets -/

/-- C2: every resolved target in a delivered result is a member of the result's
file list — resolution only returns paths that passed the membership test
against the project file set (`analysis.rs:324,335,347`), and that set holds
exactly the cleaned paths that make up the delivered files list
(`analysis.rs:371-374,390,409`). -/
theorem resolved_targets_within_scan_files (root : PathC)
    (w : List (Except String (PathC × Bool)))
    (analyze : PathC → List DetectedConnection × List DetectedDefinition)
    (r : ScanResult) (h : start_analysis root w analyze = Except.ok r) :
    (∀ c ∈ r.connections, ∀ p, c.resolved_target = some p → p ∈ r.files) ∧
      ∀ q, q ∈ projectFilesSet w ↔ q ∈ r.files := by
  simp only [start_analysis, Except.ok.injEq] at h
  subst h
  constructor
  · intro c hc p hp
    have hfiles := scanResultOf_files root w analyze
    rw [hfiles, mem_sortPaths]
    simp only [scanResultOf, List.mem_map, List.mem_flatMap] at hc
    obtain ⟨conn, _, rfl⟩ := hc
    simp only at hp
    exact resolve_import_path_mem hp
  · intro q
    rw [scanResultOf_files, mem_sortPaths]

/-- Witness for C2: a scan whose one connection resolves; its target is in the
delivered file list. -/
theorem resolved_targets_within_scan_files_witness :
    (∀ c ∈ (ScanResult.connections
        ⟨["r"], [["r", "a.js"], ["r", "b.js"]],
          [⟨["r", "a.js"], "./b", some ["r", "b.js"]⟩,
           ⟨["r", "b.js"], "./b", some ["r", "b.js"]⟩], []⟩),
      ∀ p, c.resolved_target = some p →
        p ∈ [["r", "a.js"], ["r", "b.js"]]) ∧
      ∀ q, q ∈ projectFilesSet
          [Except.ok ((["r", "a.js"] : PathC), false), Except.ok ((["r", "b.js"] : PathC), false)] ↔
        q ∈ [["r", "a.js"], ["r", "b.js"]] :=
  resolved_targets_within_scan_files ["r"]
    [Except.ok (["r", "a.js"], false), Except.ok (["r", "b.js"], false)]
    (fun p => ([⟨p, "./b"⟩], []))
    ⟨["r"], [["r", "a.js"], ["r", "b.js"]],
      [⟨["r", "a.js"], "./b", some ["r", "b.js"]⟩,
       ⟨["r", "b.js"], "./b", some ["r", "b.js"]⟩], []⟩
    (congrArg Except.ok (by decide))

/-! ### C4 — a failed discovery still sends Ok -/

/-- C4 counterexample: a scan whose walker yields only an error (discovery could
not start: an invalid root makes `WalkDir` yield a single `Err`) still delivers
`Ok` with an empty `ScanResult` — never an error value: `filter_map(|e| e.ok())`
(`analysis.rs:366`) discards the error and the worker only ever sends
`Ok((root_path, files, ...))` (`analysis.rs:413`). -/
theorem failed_discovery_still_delivers_ok :
    start_analysis ["bad"] [Except.error "root not readable"] (fun _ => ([], [])) =
      Except.ok ⟨["bad"], [], [], []⟩ :=
  congrArg Except.ok (by decide)

/-- C4 amended: when discovery cannot start, every walker item is an error; all
are discarded, and the scan delivers a single `Ok` result with empty file,
connection and definition lists — no error value is ever sent on the channel. -/
theorem all_error_walker_yields_empty_ok_scan (root : PathC)
    (w : List (Except String (PathC × Bool)))
    (analyze : PathC → List DetectedConnection × List DetectedDefinition)
    (h : ∀ e ∈ w, e.toOption = (none : Option (PathC × Bool))) :
    start_analysis root w analyze = Except.ok ⟨root, [], [], []⟩ := by
  have hde : discoveredEntries w = [] := by
    rw [discoveredEntries, List.filterMap_eq_nil_iff.mpr h]
    rfl
  simp [start_analysis, scanResultOf, projectFilesSet, hde, sortPaths,
    List.insertionSort]

/-- Witness for C4's amended claim, at a one-error walker. -/
theorem all_error_walker_yields_empty_ok_scan_witness :
    (∀ e ∈ [(Except.error "io" : Except String (PathC × Bool))],
        e.toOption = (none : Option (PathC × Bool))) ∧
      start_analysis ["bad"] [Except.error "io"] (fun _ => ([], [])) =
        Except.ok ⟨["bad"], [], [], []⟩ :=
  ⟨by decide,
    all_error_walker_yields_empty_ok_scan ["bad"] [Except.error "io"]
      (fun _ => ([], [])) (by decide)⟩

/-! ### C7 — unreadable files degrade silently -/

/-- C7: a file whose contents cannot be read yields empty connection and
definition lists (`analysis.rs:69-72`), no error reaches the caller, and every
scan still delivers a single `Ok` result whatever the per-file outcomes
(`analysis.rs:413`). -/
theorem unreadable_file_contributes_empty_and_scan_completes
    (readFile : PathC → Option String)
    (extract : PathC → String → List String × List DetectedDefinition)
    (path : PathC) (h : readFile path = none) :
    analyze_file_content readFile extract path = ([], []) ∧
      ∀ root w, ∃ res, start_analysis root w (analyze_file_content readFile extract) =
        Except.ok res := by
  constructor
  · rw [analyze_file_content, h]
  · intro root w
    exact ⟨_, rfl⟩

/-- Witness for C7: a concrete unreadable file. -/
theorem unreadable_file_contributes_empty_witness :
    analyze_file_content (fun _ => none) (fun _ _ => (["./b"], [])) ["r", "a.js"] =
        ([], []) ∧
      ∀ root w, ∃ res,
        start_analysis root w
            (analyze_file_content (fun _ => none) (fun _ _ => (["./b"], []))) =
          Except.ok res :=
  unreadable_file_contributes_empty_and_scan_completes
    (fun _ => none) (fun _ _ => (["./b"], [])) ["r", "a.js"] rfl

/-! ### C5 — ignored directories are pruned -/

/-- Processing a concatenation with `cleanAux` processes the first part, then the
second from the accumulator the first part left behind. -/
theorem cleanAux_append (a : List String) :
    ∀ acc, ∃ acc2, cleanAux acc a = acc2.reverse ∧
      ∀ b, cleanAux acc (a ++ b) = cleanAux acc2 b := by
  induction a with
  | nil => exact fun acc => ⟨acc, rfl, fun b => rfl⟩
  | cons c rest ih =>
    intro acc
    by_cases hc : c = "."
    · obtain ⟨acc2, h1, h2⟩ := ih acc
      exact ⟨acc2, by rw [cleanAux, if_pos hc]; exact h1,
        fun b => by rw [List.cons_append, cleanAux, if_pos hc]; exact h2 b⟩
    · by_cases hcc : c = ".."
      · obtain ⟨acc2, h1, h2⟩ := ih (popDotDot acc)
        exact ⟨acc2, by rw [cleanAux, if_neg hc, if_pos hcc]; exact h1,
          fun b => by rw [List.cons_append, cleanAux, if_neg hc, if_pos hcc]; exact h2 b⟩
      · obtain ⟨acc2, h1, h2⟩ := ih (c :: acc)
        exact ⟨acc2, by rw [cleanAux, if_neg hc, if_neg hcc]; exact h1,
          fun b => by rw [List.cons_append, cleanAux, if_neg hc, if_neg hcc]; exact h2 b⟩

/-- On components that are neither `"."` nor `".."`, `cleanAux` only pushes. -/
theorem cleanAux_normal (b : List String) (hb : ∀ c ∈ b, c ≠ "." ∧ c ≠ "..") :
    ∀ acc, cleanAux acc b = acc.reverse ++ b := by
  induction b with
  | nil => intro acc; simp [cleanAux]
  | cons c rest ih =>
    intro acc
    obtain ⟨h1, h2⟩ := hb c (List.mem_cons_self c rest)
    rw [cleanAux, if_neg h1, if_neg h2,
      ih (fun d hd => hb d (List.mem_cons_of_mem c hd)) (c :: acc)]
    simp

/-- Cleaning a path extended by normal components cleans the front and keeps the
extension verbatim. -/
theorem cleanComps_append_normal (a b : PathC) (hb : ∀ c ∈ b, c ≠ "." ∧ c ≠ "..") :
    cleanComps (a ++ b) = cleanComps a ++ b := by
  obtain ⟨acc2, h1, h2⟩ := cleanAux_append a []
  rw [cleanComps, h2 b, cleanAux_normal b hb acc2, cleanComps, h1]

/-- Unpacking of the `normalName` Boolean. -/
theorem normalName_facts {n : String} (h : normalName n = true) :
    n ≠ "" ∧ n ≠ "." ∧ n ≠ ".." := by
  rw [normalName] at h
  simp only [Bool.and_eq_true, bne_iff_ne, ne_eq] at h
  exact ⟨h.1.1, h.1.2, h.2⟩

mutual
/-- The pruning invariant of the filtered walk: every yielded entry sits under the
walk prefix through normal components, and a file entry has no ignored-directory
name strictly above it inside the walked tree. -/
theorem walkEntries_shape : ∀ (e : FsEntry) (pre : PathC), treeNormal e = true →
    ∀ pr ∈ walkEntries pre e,
      ∃ rel, pr.1 = pre ++ rel ∧ rel ≠ [] ∧
        (∀ c ∈ rel, normalName c = true) ∧
        (pr.2 = false → ∀ c ∈ rel.dropLast, c ∉ IGNORED_DIRS)
  | .file nm, pre, hT, pr, hpr => by
    rw [treeNormal] at hT
    rw [walkEntries] at hpr
    by_cases hig : is_ignored false (pre ++ [nm]) = true
    · rw [if_pos hig] at hpr
      simp at hpr
    · rw [if_neg hig] at hpr
      rw [List.mem_singleton] at hpr
      subst hpr
      refine ⟨[nm], rfl, by simp, ?_, by simp⟩
      intro c hc
      rw [List.mem_singleton] at hc
      subst hc
      exact hT
  | .dir nm children, pre, hT, pr, hpr => by
    rw [treeNormal, Bool.and_eq_true] at hT
    obtain ⟨hnm, hch⟩ := hT
    rw [walkEntries] at hpr
    by_cases hig : is_ignored true (pre ++ [nm]) = true
    · rw [if_pos hig] at hpr
      simp at hpr
    · rw [if_neg hig] at hpr
      have hnmdirs : nm ∉ IGNORED_DIRS := by
        intro hmem
        apply hig
        rw [is_ignored]
        have hfn : fileName (pre ++ [nm]) = some nm := by
          rw [fileName, List.getLast?_concat]
          simp [(normalName_facts hnm).2.2, (normalName_facts hnm).2.1]
        rw [hfn]
        simpa using hmem
      rcases List.mem_cons.mp hpr with hhead | htail
      · subst hhead
        refine ⟨[nm], rfl, by simp, ?_, by simp⟩
        intro c hc
        rw [List.mem_singleton] at hc
        subst hc
        exact hnm
      · obtain ⟨rel, hrel, hne, hnorm, hdirs⟩ :=
          walkForest_shape children (pre ++ [nm]) hch pr htail
        refine ⟨nm :: rel, by simpa using hrel, by simp, ?_, ?_⟩
        · intro d hd
          rcases List.mem_cons.mp hd with rfl | hd
          · exact hnm
          · exact hnorm d hd
        · intro hfile d hd
          rw [List.dropLast_cons_of_ne_nil hne] at hd
          rcases List.mem_cons.mp hd with rfl | hd
          · exact hnmdirs
          · exact hdirs hfile d hd

/-- Forest form of `walkEntries_shape`. -/
theorem walkForest_shape : ∀ (f : FsForest) (pre : PathC), forestNormal f = true →
    ∀ pr ∈ walkForest pre f,
      ∃ rel, pr.1 = pre ++ rel ∧ rel ≠ [] ∧
        (∀ c ∈ rel, normalName c = true) ∧
        (pr.2 = false → ∀ c ∈ rel.dropLast, c ∉ IGNORED_DIRS)
  | .leaf, pre, hF, pr, hpr => by simp [walkForest] at hpr
  | .cons child rest, pre, hF, pr, hpr => by
    rw [forestNormal, Bool.and_eq_true] at hF
    rw [walkForest] at hpr
    rcases List.mem_append.mp hpr with h | h
    · exact walkEntries_shape child pre hF.1 pr h
    · exact walkForest_shape rest pre hF.2 pr h
end

/-- C5: scanning a directory tree never delivers a file lying inside a directory
whose name is in `IGNORED_DIRS`, however deep: `filter_entry(|e| !is_ignored(e))`
(`analysis.rs:365`) prunes such a directory before descending into it, so every
delivered file decomposes as the cleaned walk prefix followed by components none
of whose directory-level names is ignored. -/
theorem scan_files_outside_ignored_dirs (preRoot : PathC) (t : FsEntry) (root : PathC)
    (analyze : PathC → List DetectedConnection × List DetectedDefinition)
    (r : ScanResult) (hT : treeNormal t = true)
    (h : start_analysis root ((walkEntries preRoot t).map Except.ok) analyze =
      Except.ok r) :
    ∀ p ∈ r.files, ∃ rel, p = cleanComps preRoot ++ rel ∧ rel ≠ [] ∧
      ∀ c ∈ rel.dropLast, c ∉ IGNORED_DIRS := by
  simp only [start_analysis, Except.ok.injEq] at h
  subst h
  intro p hp
  rw [scanResultOf_files, mem_sortPaths] at hp
  rw [projectFilesSet] at hp
  simp only [List.mem_map] at hp
  obtain ⟨pe, hpe, rfl⟩ := hp
  rw [discoveredEntries] at hpe
  have hmap : (((walkEntries preRoot t).map Except.ok :
        List (Except String (PathC × Bool))).filterMap (fun e => e.toOption)) =
      walkEntries preRoot t := by
    rw [List.filterMap_map]
    exact List.filterMap_some _
  rw [hmap] at hpe
  obtain ⟨hwalk, hpred⟩ := List.mem_filter.mp hpe
  have hfile : pe.2 = false := by
    rw [Bool.and_eq_true] at hpred
    simpa using hpred.1
  obtain ⟨rel, hrel, hne, hnorm, hdirs⟩ := walkEntries_shape t preRoot hT pe hwalk
  refine ⟨rel, ?_, hne, hdirs hfile⟩
  rw [hrel]
  exact cleanComps_append_normal preRoot rel (fun c hc =>
    ⟨(normalName_facts (hnorm c hc)).2.1, (normalName_facts (hnorm c hc)).2.2⟩)

/-- Witness for C5: a tree holding `root/node_modules/x.js` and `root/a.js`; the
delivered file `root/a.js` decomposes with no ignored directory above it. -/
theorem scan_files_outside_ignored_dirs_witness :
    ∃ rel, (["root", "a.js"] : PathC) = cleanComps [] ++ rel ∧ rel ≠ [] ∧
      ∀ c ∈ rel.dropLast, c ∉ IGNORED_DIRS :=
  scan_files_outside_ignored_dirs []
    (.dir "root" (.cons (.dir "node_modules" (.cons (.file "x.js") .leaf))
      (.cons (.file "a.js") .leaf)))
    ["root"] (fun _ => ([], [])) ⟨["root"], [["root", "a.js"]], [], []⟩
    (by decide) (congrArg Except.ok (by decide)) ["root", "a.js"] (by decide)

/-! ### C9 — detected definitions are well-formed -/

/-- The kind component of the capture-loop state is always absent or one of the
three real kinds, as long as every capture name comes from the definition
queries. -/
theorem foldl_defMatchStep_kind (captures : List CaptureInfo)
    (hnames : ∀ c ∈ captures, c.capture_name ∈ defQueryCaptureNames) :
    ∀ st : Option String × Option String × Option Nat,
      (st.2.1 = none ∨ st.2.1 = some "Function" ∨ st.2.1 = some "Class" ∨
        st.2.1 = some "Variable") →
      ((captures.foldl defMatchStep st).2.1 = none ∨
        (captures.foldl defMatchStep st).2.1 = some "Function" ∨
        (captures.foldl defMatchStep st).2.1 = some "Class" ∨
        (captures.foldl defMatchStep st).2.1 = some "Variable") := by
  induction captures with
  | nil => exact fun st hst => hst
  | cons cap rest ih =>
    intro st hst
    rw [List.foldl_cons]
    refine ih (fun c hc => hnames c (List.mem_cons_of_mem cap hc)) _ ?_
    have hname := hnames cap (List.mem_cons_self cap rest)
    obtain ⟨capName, capText, capRow⟩ := cap
    simp only [defQueryCaptureNames, List.mem_cons, List.not_mem_nil, or_false] at hname
    rcases hname with rfl | rfl | rfl | rfl | rfl | rfl | rfl | rfl <;>
      rcases htext : capText with _ | t <;>
        simp [defMatchStep, kindOf, strStartsWithStr, htext, hst]

/-- C9: every definition the match-processing loop emits has kind `Function`,
`Class` or `Variable` (the `"Definition"` fallback of `analysis.rs:248` is
unreachable for the capture names the two queries declare), a non-empty symbol
name (`analysis.rs:265`), and a 1-indexed line number — the 0-based row plus one
(`analysis.rs:270`), hence at least 1. -/
theorem detected_definition_wellformed (source : PathC) (captures : List CaptureInfo)
    (d : DetectedDefinition)
    (hnames : ∀ c ∈ captures, c.capture_name ∈ defQueryCaptureNames)
    (h : processDefMatch source captures = some d) :
    (d.kind = "Function" ∨ d.kind = "Class" ∨ d.kind = "Variable") ∧
      d.symbol_name ≠ "" ∧ 1 ≤ d.line_number := by
  have hk := foldl_defMatchStep_kind captures hnames (none, none, none) (Or.inl rfl)
  rw [processDefMatch] at h
  rcases hfold : captures.foldl defMatchStep (none, none, none) with ⟨dn, kdo, rwo⟩
  rw [hfold] at h hk
  simp only at h hk
  cases dn with
  | none => simp at h
  | some nm =>
    cases kdo with
    | none => simp at h
    | some kd =>
      cases rwo with
      | some r =>
        simp only at h
        by_cases hnm : (nm != "") = true
        · rw [if_pos hnm] at h
          cases h
          exact ⟨by simpa using hk, by simpa using hnm, Nat.le_add_left 1 r⟩
        · rw [if_neg hnm] at h
          exact absurd h (by simp)
      | none =>
        cases hh : captures.head? with
        | none =>
          rw [hh] at h
          simp at h
        | some c0 =>
          rw [hh] at h
          simp only [Option.map_some'] at h
          by_cases hnm : (nm != "") = true
          · rw [if_pos hnm] at h
            cases h
            exact ⟨by simpa using hk, by simpa using hnm, Nat.le_add_left 1 _⟩
          · rw [if_neg hnm] at h
            exact absurd h (by simp)

/-- Witness for C9: the match for `function foo() {}` — a `def.name` capture and a
`def.function` capture — yields a `Function` definition named `foo` on line 5. -/
theorem detected_definition_wellformed_witness :
    ((DetectedDefinition.kind ⟨["src", "a.js"], "foo", "Function", 5⟩ = "Function" ∨
        DetectedDefinition.kind ⟨["src", "a.js"], "foo", "Function", 5⟩ = "Class" ∨
        DetectedDefinition.kind ⟨["src", "a.js"], "foo", "Function", 5⟩ = "Variable") ∧
      DetectedDefinition.symbol_name ⟨["src", "a.js"], "foo", "Function", 5⟩ ≠ "" ∧
      1 ≤ DetectedDefinition.line_number ⟨["src", "a.js"], "foo", "Function", 5⟩) :=
  detected_definition_wellformed ["src", "a.js"]
    [⟨"def.name", some "foo", 4⟩, ⟨"def.function", some "function foo() \x7b\x7d", 4⟩]
    ⟨["src", "a.js"], "foo", "Function", 5⟩ (by decide) (by decide)

/-! ### C8 — inverse-usage grouping -/

/-- C8: the inverse-usage section groups by resolved target with the targets
sorted, lists under each target exactly the source files that import it (sorted),
and gives connections with no resolved target no entry at all; in particular when
`a.js` and `c.js` both resolve an import to `b.js`, the entry for `b.js` lists
both, in sorted order. -/
theorem inverse_usage_grouping :
    (∀ conns : List ResolvedConnection,
        List.Sorted pathLe
          ((generate_inverse_usage_groups conns).map (fun g => g.1))) ∧
      (∀ conns : List ResolvedConnection,
        ∀ g ∈ generate_inverse_usage_groups conns, List.Sorted pathLe g.2) ∧
      (∀ (conns : List ResolvedConnection) (t s : PathC),
        (∃ srcs, (t, srcs) ∈ generate_inverse_usage_groups conns ∧ s ∈ srcs) ↔
          ∃ c ∈ conns, c.resolved_target = some t ∧ c.source_file = s) ∧
      generate_inverse_usage_groups
          [⟨["a.js"], "./b", some ["b.js"]⟩, ⟨["c.js"], "./b", some ["b.js"]⟩,
           ⟨["a.js"], "lodash", none⟩] =
        [(["b.js"], [["a.js"], ["c.js"]])] := by
  refine ⟨?_, ?_, ?_, by decide⟩
  · intro conns
    rw [generate_inverse_usage_groups]
    rw [List.map_map]
    have hcomp : ((fun g : PathC × List PathC => g.1) ∘
        (fun t => (t, sortPaths ((inversePairs conns).filterMap
          (fun pr => if pr.1 = t then some pr.2 else none))))) = fun t => t := rfl
    rw [hcomp, List.map_id']
    exact List.sorted_insertionSort pathLe _
  · intro conns g hg
    rw [generate_inverse_usage_groups] at hg
    obtain ⟨t, _, rfl⟩ := List.mem_map.mp hg
    exact List.sorted_insertionSort pathLe _
  · intro conns t s
    constructor
    · rintro ⟨srcs, hmem, hs⟩
      rw [generate_inverse_usage_groups] at hmem
      obtain ⟨t2, _, heq⟩ := List.mem_map.mp hmem
      obtain ⟨rfl, rfl⟩ := Prod.mk.injEq .. ▸ heq
      rw [mem_sortPaths] at hs
      obtain ⟨pr, hpr, hif⟩ := List.mem_filterMap.mp hs
      by_cases hp1 : pr.1 = t2
      · rw [if_pos hp1] at hif
        obtain ⟨c, hc, hcpr⟩ := List.mem_filterMap.mp hpr
        obtain ⟨tt, hrt, hpair⟩ := Option.map_eq_some'.mp hcpr
        refine ⟨c, hc, ?_, ?_⟩
        · rw [hrt, ← hp1, ← hpair]
        · injection hif with hif2
          rw [← hif2, ← hpair]
      · rw [if_neg hp1] at hif
        exact absurd hif (by simp)
    · rintro ⟨c, hc, hrt, hsf⟩
      have hpair : (t, s) ∈ inversePairs conns := by
        rw [inversePairs]
        exact List.mem_filterMap.mpr ⟨c, hc, by rw [hrt, Option.map_some', hsf]⟩
      refine ⟨sortPaths ((inversePairs conns).filterMap
        (fun pr => if pr.1 = t then some pr.2 else none)), ?_, ?_⟩
      · rw [generate_inverse_usage_groups]
        refine List.mem_map.mpr ⟨t, ?_, rfl⟩
        rw [mem_sortPaths, List.mem_dedup]
        exact List.mem_map.mpr ⟨(t, s), hpair, rfl⟩
      · rw [mem_sortPaths]
        exact List.mem_filterMap.mpr ⟨(t, s), hpair, by rw [if_pos rfl]⟩

/-- Witness for C8: in the concrete three-connection list — two resolved imports
of `b.js` and one unresolved — the entry for `b.js` carries `a.js`. -/
theorem inverse_usage_grouping_witness :
    ∃ c ∈ [(⟨["a.js"], "./b", some ["b.js"]⟩ : ResolvedConnection),
        ⟨["c.js"], "./b", some ["b.js"]⟩, ⟨["a.js"], "lodash", none⟩],
      c.resolved_target = some ["b.js"] ∧ c.source_file = ["a.js"] :=
  (inverse_usage_grouping.2.2.1
      [⟨["a.js"], "./b", some ["b.js"]⟩, ⟨["c.js"], "./b", some ["b.js"]⟩,
       ⟨["a.js"], "lodash", none⟩] ["b.js"] ["a.js"]).mp
    ⟨[["a.js"], ["c.js"]], by decide, by decide⟩

/-! ### C1 amended — the candidate order the code follows -/

/-- The index-file loop is the first match over its mapped candidate list. -/
theorem tryIndexLoop_eq_first_match (base : PathC) (P : List PathC) (l : List String) :
    tryIndexLoop base P l =
      (l.map (fun ix => cleanComps (base ++ parsePath ix))).find?
        (fun c => P.contains c) := by
  induction l with
  | nil => rfl
  | cons ix rest ih =>
    rw [tryIndexLoop, List.map_cons]
    by_cases h : P.contains (cleanComps (base ++ parsePath ix))
    · rw [if_pos h, List.find?_cons_of_pos _ h]
    · rw [if_neg h, List.find?_cons_of_neg _ (by simpa using h), ih]

/-- The extension loop is the first match over its flattened candidate list. -/
theorem tryExtensionsLoop_eq_first_match (base : PathC) (s : String) (P : List PathC)
    (l : List String) :
    tryExtensionsLoop base s P l =
      (l.flatMap (codeCandidatesFor base s)).find? (fun c => P.contains c) := by
  induction l with
  | nil => rfl
  | cons ext rest ih =>
    rw [List.flatMap_cons, codeCandidatesFor]
    simp only [tryExtensionsLoop]
    rw [List.cons_append]
    by_cases h1 : P.contains (cleanComps (extCandidate base ext))
    · rw [if_pos h1, List.find?_cons_of_pos _ h1]
    · rw [if_neg h1, List.find?_cons_of_neg _ (by simpa using h1)]
      by_cases h2 : (noExtImport s && ext != "") = true
      · rw [if_pos h2, if_pos h2, List.singleton_append]
        by_cases h3 : P.contains (cleanComps (setExtension base (trimStartDots ext)))
        · rw [if_pos h3, List.find?_cons_of_pos _ h3]
        · rw [if_neg h3, List.find?_cons_of_neg _ (by simpa using h3), ih]
      · rw [if_neg h2, if_neg h2, List.nil_append, ih]

/-- C1 amended: for every eligible relative specifier, resolution is the first
candidate of `codeCandidates` (the as-is base, then per extension the appended
candidate followed — for specifiers ending in `'/'` or without an extension —
by the extension-replacing candidate, then the index files; every candidate
cleaned) found in the project file set. -/
theorem resolve_import_path_first_match_of_code_candidates
    (f : PathC) (s : String) (P : List PathC) (d : PathC)
    (h1 : startsWithDot s = true) (h2 : containsColon s = false)
    (h3 : parent f = some d) :
    resolve_import_path f s P =
      (codeCandidates (cleanComps (d ++ parsePath s)) s).find?
        (fun c => P.contains c) := by
  rw [resolve_import_path, h1, h2, h3]
  simp only [Bool.not_true, Bool.or_false]
  rw [if_neg (by exact Bool.false_ne_true)]
  rw [codeCandidates, List.find?_append,
    tryExtensionsLoop_eq_first_match, tryIndexLoop_eq_first_match]
  cases hfe : (extensionsTried.flatMap
      (codeCandidatesFor (cleanComps (d ++ parsePath s)) s)).find?
        (fun c => P.contains c) with
  | some q => rfl
  | none => rfl

/-- Witness for the amended C1: the specifier `./b` from `src/a.ts` resolves to
the first code candidate found in the project set. -/
theorem resolve_import_path_first_match_witness :
    startsWithDot "./b" = true ∧ containsColon "./b" = false ∧
      parent ["src", "a.ts"] = some ["src"] ∧
      resolve_import_path ["src", "a.ts"] "./b" [["src", "b.ts"]] =
        (codeCandidates (cleanComps (["src"] ++ parsePath "./b")) "./b").find?
          (fun c => List.contains [["src", "b.ts"]] c) :=
  ⟨rfl, rfl, rfl,
    resolve_import_path_first_match_of_code_candidates ["src", "a.ts"] "./b"
      [["src", "b.ts"]] ["src"] rfl rfl rfl⟩

end Contextrs
